import Mathlib

/-!
Verification development for the voice-dictation pipeline engine.

Each definition below is a shallow embedding of the corresponding Rust
function from the repository (file and function named in its doc comment).
Machine integers (`u16`, `u32`, `usize`) are modelled as `Nat`; audio
samples (`f32`) are modelled as `ℚ` with exact arithmetic, which agrees
with the `f32` computation on the all-zero / constant inputs used in the
concrete theorems, and energy comparisons against the RMS threshold are
expressed on squared values (square root is strictly monotone on
nonnegative reals, so `rms > t` iff `rms² > t²`).  Strings are Lean
`String`s; word splitting, trimming and lowercasing are re-implemented
structurally over the character list so that every definition evaluates
inside the kernel (Rust's Unicode-aware `trim` / `to_lowercase` agree
with these on ASCII input).
-/

set_option maxHeartbeats 2000000
set_option maxRecDepth 4000

namespace VoiceDictator

/-! ### Dictation state machine — src/src-tauri/src/state.rs -/

/-- Recording mode (config/schema.rs): `Toggle` is the default. -/
inductive RecordingMode
  | Toggle
  | PushToTalk
deriving DecidableEq

/-- Application states (state.rs `AppState`). -/
inductive AppState
  | Idle
  | Recording
  | Transcribing
  | Enhancing
  | Pasting
  | Error
deriving DecidableEq

/-- Events driving transitions (state.rs `AppEvent`). -/
inductive AppEvent
  | HotkeyPressed
  | HotkeyDown
  | HotkeyUp
  | SilenceTimeout
  | MaxDurationTimeout
  | TranscriptionDone
  | EnhancementDone
  | PasteDone
  | Cancel
  | Failed (reason : String)
  | ErrorAcknowledged
deriving DecidableEq

/-- Pure transition function (state.rs `transition`).  `Failed` is handled
first and short-circuits to `Error`; the match arms with a mode guard fall
through to the default (keep the current state) when the guard fails,
exactly as in the Rust `match` with `if` guards. -/
def transition (state : AppState) (event : AppEvent) (mode : RecordingMode) : AppState :=
  match event with
  | .Failed _ => .Error
  | event =>
    match state, event with
    | .Idle, .HotkeyPressed => if mode = .Toggle then .Recording else .Idle
    | .Recording, .HotkeyPressed => if mode = .Toggle then .Transcribing else .Recording
    | .Idle, .HotkeyDown => if mode = .PushToTalk then .Recording else .Idle
    | .Recording, .HotkeyUp => if mode = .PushToTalk then .Transcribing else .Recording
    | .Recording, .SilenceTimeout => if mode = .Toggle then .Transcribing else .Recording
    | .Recording, .MaxDurationTimeout => .Transcribing
    | .Transcribing, .TranscriptionDone => .Enhancing
    | .Enhancing, .EnhancementDone => .Pasting
    | .Pasting, .PasteDone => .Idle
    | .Transcribing, .HotkeyPressed => .Idle
    | .Enhancing, .HotkeyPressed => .Idle
    | .Pasting, .HotkeyPressed => .Idle
    | .Transcribing, .Cancel => .Idle
    | .Enhancing, .Cancel => .Idle
    | .Pasting, .Cancel => .Idle
    | .Error, .ErrorAcknowledged => .Idle
    | s, _ => s

/-! ### List chunking helper

`slice.chunks(n)` from Rust, used by `to_mono` and the silence trimmers.
Implemented with an explicit fuel equal to the list length so that it is
structurally recursive and evaluates inside the kernel; each step consumes
at least one element, so the fuel never runs out. -/

def chunks_fuel {α : Type} (n : Nat) : Nat → List α → List (List α)
  | 0, _ => []
  | _ + 1, [] => []
  | fuel + 1, x :: xs => (x :: xs.take (n - 1)) :: chunks_fuel n fuel (xs.drop (n - 1))

/-- Rust `slice::chunks(n)`: consecutive sub-slices of length `n`, the last
one possibly shorter.  (Rust panics on `n = 0`; all call sites below guard
`n > 0` first, and this model returns `[]` there.) -/
def chunksOf {α : Type} (n : Nat) (l : List α) : List (List α) :=
  chunks_fuel n l.length l

/-! ### Preprocessor — src/src-tauri/src/audio/preprocess.rs -/

/-- audio/preprocess.rs `to_mono`: mono (or fewer) channels are returned as
a copy; otherwise each interleaved frame of `channels` samples is averaged. -/
def to_mono (samples : List ℚ) (channels : Nat) : List ℚ :=
  if channels ≤ 1 then samples
  else (chunksOf channels samples).map (fun frame => frame.sum / (frame.length : ℚ))

/-- audio/preprocess.rs `calculate_energy`, squared: the Rust code returns
`sqrt (Σ s² / len)` and compares it against the threshold `0.01`; this model
keeps the radicand and the theorems compare against `0.01² = 1/10000`. -/
def calculate_energy_sq (frame : List ℚ) : ℚ :=
  if frame = [] then 0
  else (frame.map (fun s => s * s)).sum / (frame.length : ℚ)

/-- One RMS analysis frame is voiced when its energy strictly exceeds the
silence threshold (`SILENCE_RMS_THRESHOLD = 0.01`). -/
def voiced (frame : List ℚ) : Bool :=
  decide ((1 / 10000 : ℚ) < calculate_energy_sq frame)

/-- Number of silent frames before the first voiced frame (the `break` in
the Rust scan of `trim_leading_silence`); equals the list length when
every frame is silent. -/
def countLeadingSilent : List (List ℚ) → Nat
  | [] => 0
  | f :: rest => if voiced f then 0 else countLeadingSilent rest + 1

/-- audio/preprocess.rs `trim_leading_silence`.  `ENERGY_FRAME_MS = 20`;
`first_voice_sample` always equals `k * frame_size` where `k` is the
number of leading silent frames. -/
def trim_leading_silence (samples : List ℚ) (sample_rate min_silence_ms : Nat) : List ℚ :=
  if samples = [] then samples
  else
    let frameSize := sample_rate * 20 / 1000
    let minSilentFrames := min_silence_ms / 20
    if frameSize = 0 then samples
    else
      let k := countLeadingSilent (chunksOf frameSize samples)
      if k < minSilentFrames then samples
      else if samples.length ≤ k * frameSize then []
      else samples.drop (k * frameSize)

/-- audio/preprocess.rs `trim_trailing_silence`.  The reverse scan leaves
`last_voice_end = (numFrames - j) * frame_size` where `j` is the number of
trailing silent frames (including the all-silent case, where the Rust loop
sets `last_voice_end = 0` at index 0). -/
def trim_trailing_silence (samples : List ℚ) (sample_rate min_silence_ms : Nat) : List ℚ :=
  if samples = [] then samples
  else
    let frameSize := sample_rate * 20 / 1000
    let minSilentFrames := min_silence_ms / 20
    if frameSize = 0 then samples
    else
      let frames := chunksOf frameSize samples
      let j := countLeadingSilent frames.reverse
      if j < minSilentFrames then samples
      else samples.take (min ((frames.length - j) * frameSize) samples.length)

/-- audio/preprocess.rs `trim_silence`: leading trim with a 200 ms minimum,
then trailing trim with a 500 ms minimum. -/
def trim_silence (samples : List ℚ) (sample_rate : Nat) : List ℚ :=
  trim_trailing_silence (trim_leading_silence samples sample_rate 200) sample_rate 500

/-! ### Codec guards — src/src-tauri/src/audio/encode.rs -/

/-- Audio errors (subset relevant to `encode_ogg_opus`). -/
inductive AudioError
  | encodingFailed (msg : String)
deriving DecidableEq

/-- audio/encode.rs `encode_ogg_opus`, guard structure.  The two guards at
the top of the function are embedded exactly (empty input first, then the
sample-rate check); `none` models falling through to the libopus encoder
body, which is foreign code and not claimed about here. -/
def encode_ogg_opus (samples : List ℚ) (sample_rate : Nat) :
    Option (Except AudioError (List Nat)) :=
  if samples = [] then some (.ok [])
  else if sample_rate ≠ 16000 then
    some (.error (.encodingFailed ((("expected 16000 Hz, got ") ++ toString sample_rate) ++ (" Hz"))))
  else none

/-! ### Word and string helpers (Rust `str` methods, re-implemented
structurally so that they evaluate in the kernel) -/

/-- Helper for `words`: accumulates the current word (reversed) while
scanning the character list; whitespace ends a word. -/
def words_aux : List Char → List Char → List String
  | [], cur => if cur = [] then [] else [String.mk cur.reverse]
  | c :: cs, cur =>
    if c.isWhitespace then
      if cur = [] then words_aux cs [] else String.mk cur.reverse :: words_aux cs []
    else words_aux cs (c :: cur)

/-- Rust `str::split_whitespace().collect()`: the maximal nonempty runs of
non-whitespace characters. -/
def words (s : String) : List String := words_aux s.toList []

/-- Rust `str::trim`: drop leading and trailing whitespace characters. -/
def trim (s : String) : String :=
  String.mk (((s.toList.dropWhile Char.isWhitespace).reverse.dropWhile Char.isWhitespace).reverse)

/-- Rust `str::to_lowercase` (per-character; agrees on ASCII). -/
def lower (s : String) : String := String.mk (s.toList.map Char.toLower)

/-- Rust `Vec::join(sep)`. -/
def join_sep (sep : String) : List String → String
  | [] => ("")
  | w :: ws => ws.foldl (fun acc w2 => (acc ++ sep) ++ w2) w

/-! ### Enhancement validator — src/src-tauri/src/enhance/mod.rs -/

/-- enhance/mod.rs `ValidationResult`. -/
inductive ValidationResult
  | Ok (text : String)
  | Fallback (text : String)
deriving DecidableEq

/-- enhance/mod.rs `count_words`: `split_whitespace().count()`. -/
def count_words (text : String) : Nat := (words text).length

/-- enhance/mod.rs `validate_enhancement`.  Constants: `MAX_ENHANCED_CHARS
= 5000` (compared against the byte length, as in Rust `String::len`, and
truncated by characters, as in `chars().take(..)`), `MIN_WORD_RATIO = 0.3`,
`MAX_WORD_RATIO = 1.5`.  The `f64` ratio comparison is modelled as the
exact rational comparison, with which it agrees for all word counts
realisable in a `String`. -/
def validate_enhancement (raw enhanced : String) : ValidationResult :=
  if trim raw = ("") then .Fallback raw
  else if trim enhanced = ("") then .Fallback raw
  else if 2 < count_words raw ∧
      (count_words (trim enhanced) : ℚ) / (count_words raw : ℚ) < 3 / 10 then .Fallback raw
  else if 2 < count_words raw ∧
      3 / 2 < (count_words (trim enhanced) : ℚ) / (count_words raw : ℚ) then .Fallback raw
  else if 5000 < (trim enhanced).utf8ByteSize then
    .Ok (String.mk ((trim enhanced).toList.take 5000))
  else .Ok (trim enhanced)

/-! ### Enhancement client retry loop — src/src-tauri/src/enhance/openai_responses.rs -/

/-- enhance/mod.rs `EnhanceError`. -/
inductive EnhanceError
  | network (s : String)
  | authFailed
  | rateLimited (retryAfterSec : Nat)
  | timeout
  | apiError (status : Nat) (message : String)
  | invalidResponse (s : String)
deriving DecidableEq

/-- openai_responses.rs `OpenAiEnhancer::is_retryable`: network errors,
timeouts and 5xx statuses are retryable, everything else is not. -/
def is_retryable : EnhanceError → Bool
  | .network _ => true
  | .timeout => true
  | .apiError status _ => 500 ≤ status
  | _ => false

/-- The text `do_enhance` returns after a successful request: either branch
of the validator is unwrapped into `Ok`. -/
def validation_text (raw enhanced : String) : String :=
  match validate_enhancement raw enhanced with
  | .Ok t => t
  | .Fallback t => t

/-- openai_responses.rs `do_enhance`, with the outcome of each successive
`send_request` call supplied as a list (the network is external to the
embedding).  `MAX_RATE_LIMIT_RETRIES = 5`.  State: remaining general
retries, then rate-limit retries used so far.  Returns `none` when the
supplied outcome list is exhausted while the loop would issue another
request; backoff sleeps do not affect the result and are omitted. -/
def do_enhance_loop (raw : String) :
    List (Except EnhanceError String) → Nat → Nat → Option (Except EnhanceError String)
  | [], _, _ => none
  | o :: rest, retriesLeft, rateLimitRetries =>
    match o with
    | .ok enhanced => some (.ok (validation_text raw enhanced))
    | .error (.rateLimited _) =>
      if 5 < rateLimitRetries + 1 then some (.ok raw)
      else do_enhance_loop raw rest retriesLeft (rateLimitRetries + 1)
    | .error e =>
      if is_retryable e = false then some (.ok raw)
      else if retriesLeft = 0 then some (.ok raw)
      else do_enhance_loop raw rest (retriesLeft - 1) rateLimitRetries

/-- openai_responses.rs `do_enhance`: the loop starts with the configured
`retry_count` as the general retry budget and zero rate-limit retries. -/
def do_enhance (raw : String) (retry_count : Nat)
    (outcomes : List (Except EnhanceError String)) : Option (Except EnhanceError String) :=
  do_enhance_loop raw outcomes retry_count 0

/-! ### Chunker — src/src-tauri/src/stt/mod.rs -/

/-- `CHUNK_OVERLAP_SEC = 1.5` seconds, in samples: `(1.5 * rate as f32) as
usize`, which equals `3 * rate / 2` for every rate below 2²² (the `f32`
product is exact there and the cast truncates). -/
def overlap_samples (rate : Nat) : Nat := 3 * rate / 2

/-- `MIN_CHUNK_SEC = 5` seconds, in samples: `(5.0 * rate as f32) as usize
= 5 * rate` (exact for every rate below 2²¹). -/
def min_chunk_samples (rate : Nat) : Nat := 5 * rate

/-- Rust slice `samples[a..b]` (callers guarantee `a ≤ b ≤ len`). -/
def slice (l : List ℚ) (a b : Nat) : List ℚ := (l.drop a).take (b - a)

/-- Energy of the analysis window of `find_quiet_split_point`:
`Σ s² / len` over `segment[start .. start+window]` (no square root in the
Rust code here). -/
def window_energy (segment : List ℚ) (window start : Nat) : ℚ :=
  let w := (segment.drop start).take window
  (w.map (fun s => s * s)).sum / (w.length : ℚ)

/-- The minimum scan of `find_quiet_split_point`: walk the window start
positions keeping the first strictly smallest energy, recording
`start + window/2`.  The accumulator starts as `none`, standing for the
Rust initial `min_energy = f32::MAX` (every finite window energy is below
it), and an empty scan leaves the initial `min_pos = 0`. -/
def scan_min (segment : List ℚ) (window : Nat) : List Nat → Option (ℚ × Nat) → Nat
  | [], none => 0
  | [], some st => st.2
  | start :: rest, none =>
    scan_min segment window rest (some (window_energy segment window start, start + window / 2))
  | start :: rest, some st =>
    let e := window_energy segment window start
    if e < st.1 then scan_min segment window rest (some (e, start + window / 2))
    else scan_min segment window rest (some st)

/-- stt/mod.rs `find_quiet_split_point`.  `RMS_WINDOW_MS = 20`.  The outer
`Option` distinguishes the `step_by(0)` panic: when `window_size / 2 = 0`
(any rate below 100 Hz that passes the length guard) the Rust iterator
constructor panics, modelled as `none`; `some none` is Rust's `None`
(segment too short), `some (some p)` is Rust's `Some(p)`. -/
def find_quiet_split_point (segment : List ℚ) (sample_rate : Nat) : Option (Option Nat) :=
  let windowSize := sample_rate * 20 / 1000
  if segment.length < windowSize * 2 then some none
  else if windowSize / 2 = 0 then none
  else
    some (some (scan_min segment windowSize
      ((List.range (segment.length - windowSize)).filter (fun s => s % (windowSize / 2) = 0)) none))

/-- Result of running the chunking loop: the produced source ranges
`(offset, end)` into the input (the Rust code pushes
`samples[offset..end].to_vec()`), or the two abnormal outcomes. -/
inductive ChunkOutcome
  | ok (ranges : List (Nat × Nat))
  | panicked
  | outOfFuel
deriving DecidableEq

/-- The Rust local `search_start`: `offset + max_chunk_samples *
QUIET_SEARCH_START_PERCENT / 100` with `QUIET_SEARCH_START_PERCENT = 70`. -/
def search_start (offset maxChunkSamples : Nat) : Nat := offset + maxChunkSamples * 70 / 100

/-- The Rust local `split_point`: the quiet point mapped back into the
whole input (`search_start + p`), or the window boundary
`offset + max_chunk_samples` when no quiet point was found. -/
def split_point (offset maxChunkSamples : Nat) (q : Option Nat) : Nat :=
  match q with
  | some p => search_start offset maxChunkSamples + p
  | none => offset + maxChunkSamples

/-- The Rust local `actual_end`: merge a too-small trailing remainder
(shorter than `MIN_CHUNK_SEC`) into the final chunk by cutting at the end
of the input instead of at the split point. -/
def actual_end (samples : List ℚ) (rate offset maxChunkSamples : Nat) (q : Option Nat) : Nat :=
  if samples.length - split_point offset maxChunkSamples q < min_chunk_samples rate then
    samples.length
  else split_point offset maxChunkSamples q

/-- stt/mod.rs `chunk_audio`, the `while offset < samples.len()` loop, with
explicit fuel (the Rust loop has no termination guarantee — see the
claims).  Nat subtraction is saturating, exactly like the Rust
`saturating_sub` on the new offset. -/
def chunk_loop (samples : List ℚ) (rate maxSec : Nat) : Nat → Nat → List (Nat × Nat) → ChunkOutcome
  | 0, _, _ => .outOfFuel
  | fuel + 1, offset, acc =>
    if offset < samples.length then
      if samples.length - offset ≤ maxSec * rate then .ok (acc ++ [(offset, samples.length)])
      else
        match find_quiet_split_point
            (slice samples (search_start offset (maxSec * rate)) (offset + maxSec * rate)) rate with
        | none => .panicked
        | some q =>
          if samples.length ≤ actual_end samples rate offset (maxSec * rate) q then
            .ok (acc ++ [(offset, actual_end samples rate offset (maxSec * rate) q)])
          else
            chunk_loop samples rate maxSec fuel
              (actual_end samples rate offset (maxSec * rate) q - overlap_samples rate)
              (acc ++ [(offset, actual_end samples rate offset (maxSec * rate) q)])
    else .ok acc

/-- stt/mod.rs `chunk_audio`: the degenerate-parameter guard and the
single-chunk fast path precede the loop. -/
def chunk_audio (samples : List ℚ) (rate maxSec fuel : Nat) : ChunkOutcome :=
  if rate = 0 ∨ maxSec = 0 then .ok [(0, samples.length)]
  else if samples.length ≤ maxSec * rate then .ok [(0, samples.length)]
  else chunk_loop samples rate maxSec fuel 0 []

/-- A sample index is covered by one of the produced source ranges. -/
def covers (ranges : List (Nat × Nat)) (i : Nat) : Prop :=
  ∃ p ∈ ranges, p.1 ≤ i ∧ i < p.2

/-- Largest range end produced so far (0 for no ranges). -/
def maxEnd (ranges : List (Nat × Nat)) : Nat :=
  (ranges.map Prod.snd).foldr max 0

/-- 571 zero samples: at 100 Hz with a 1 s maximum chunk length the
chunking loop never advances (next offset 71 − 150 saturates to 0). -/
def silence571 : List ℚ := List.replicate 571 0

/-- 921 zero samples: at 100 Hz with a 6 s maximum chunk length the first
cut lands at sample 421, producing a non-final chunk of 4.21 s. -/
def silence921 : List ℚ := List.replicate 921 0

/-! ### Transcript assembler — src/src-tauri/src/stt/mod.rs -/

/-- stt/mod.rs `find_text_overlap` inner test for a fixed `n`: the last `n`
words of `prev` equal the first `n` words of `next` after per-word
lowercasing (the Rust `zip`/`all` over two length-`n` slices). -/
def overlap_match (prevW nextW : List String) (n : Nat) : Bool :=
  ((prevW.drop (prevW.length - n)).map lower) == ((nextW.take n).map lower)

/-- stt/mod.rs `find_text_overlap` loop `for n in (2..=max_check).rev()`:
first (largest) matching `n`, else 0. -/
def find_text_overlap_from (prevW nextW : List String) : Nat → Nat
  | 0 => 0
  | 1 => 0
  | n + 2 =>
    if overlap_match prevW nextW (n + 2) then n + 2
    else find_text_overlap_from prevW nextW (n + 1)

/-- stt/mod.rs `find_text_overlap`: `max_check =
prev_words.len().min(next_words.len()).min(5)`. -/
def find_text_overlap (prev next : String) : Nat :=
  find_text_overlap_from (words prev) (words next) (min (min (words prev).length (words next).length) 5)

/-- One step of the assembling fold in `deduplicate_overlap_texts`: drop
the overlapping words from `next` (joining the rest with single spaces, as
the Rust `join(" ")` does) and append, or append `next` verbatim when no
overlap was found. -/
def dedup_step (result next : String) : String :=
  let overlapWords := find_text_overlap result next
  if 0 < overlapWords then
    let remaining := join_sep (" ") ((words next).drop overlapWords)
    if remaining = ("") then result else (result ++ (" ")) ++ remaining
  else (result ++ (" ")) ++ next

/-- stt/mod.rs `deduplicate_overlap_texts`: empty input gives the empty
string; otherwise fold the remaining transcripts onto the first (the Rust
single-element early return coincides with the fold over an empty tail). -/
def deduplicate_overlap_texts (texts : List String) : String :=
  match texts with
  | [] => ("")
  | t :: rest => rest.foldl dedup_step t

/-- Modelled from the spec (§4.8): the longest shared word run of length
2–5; expressed directly as the greatest `n ≤ 5` that is a shared run, for
comparison with the source's downward scan. -/
def spec_longest_overlap (prevW nextW : List String) : Nat :=
  Nat.findGreatest
    (fun n => 2 ≤ n ∧ n ≤ prevW.length ∧ n ≤ nextW.length ∧ overlap_match prevW nextW n = true) 5

/-- Modelled from the spec (§4.8): one assembling step using the
spec-side longest overlap. -/
def assemble_step (result next : String) : String :=
  let n := spec_longest_overlap (words result) (words next)
  if 0 < n then
    let remaining := join_sep (" ") ((words next).drop n)
    if remaining = ("") then result else (result ++ (" ")) ++ remaining
  else (result ++ (" ")) ++ next

/-- Modelled from the spec (§4.8): join per-chunk transcripts, cancelling
the duplication introduced by chunk overlap. -/
def assemble_spec : List String → String
  | [] => ("")
  | t :: rest => rest.foldl assemble_step t

/-! ## Shared lemmas -/

/-- Each character occupies at least one UTF-8 byte. -/
theorem length_le_utf8_go (cs : List Char) : cs.length ≤ String.utf8ByteSize.go cs := by
  induction cs with
  | nil => simp [String.utf8ByteSize.go]
  | cons c cs ih =>
    have hc := Char.utf8Size_pos c
    simp only [List.length_cons, String.utf8ByteSize.go]
    omega

/-- The character count of a string never exceeds its UTF-8 byte size. -/
theorem length_le_utf8ByteSize (s : String) : s.length ≤ s.utf8ByteSize := by
  cases s with
  | mk data => exact length_le_utf8_go data

/-- A chunked list is covered by its chunks: `len ≤ numChunks * n`
(provided the fuel is at least the length, as at the `chunksOf` call site). -/
theorem chunks_fuel_length_le {α : Type} (n : Nat) (hn : 0 < n) :
    ∀ (fuel : Nat) (l : List α), l.length ≤ fuel →
      l.length ≤ (chunks_fuel n fuel l).length * n := by
  intro fuel
  induction fuel with
  | zero =>
    intro l hl
    simp only [Nat.le_zero, List.length_eq_zero] at hl
    subst hl
    simp [chunks_fuel]
  | succ f ih =>
    intro l hl
    cases l with
    | nil => simp [chunks_fuel]
    | cons x xs =>
      have hdrop : (xs.drop (n - 1)).length ≤ f := by
        simp only [List.length_drop]
        simp only [List.length_cons] at hl
        omega
      have := ih (xs.drop (n - 1)) hdrop
      simp only [List.length_drop] at this
      simp only [chunks_fuel, List.length_cons, Nat.succ_mul]
      omega

/-- When every frame is silent the leading-silence counter reaches the
total frame count. -/
theorem countLeadingSilent_all (frames : List (List ℚ))
    (h : ∀ f ∈ frames, voiced f = false) : countLeadingSilent frames = frames.length := by
  induction frames with
  | nil => rfl
  | cons f rest ih =>
    have hf : voiced f = false := h f (List.mem_cons_self f rest)
    have := ih (fun g hg => h g (List.mem_cons_of_mem f hg))
    simp [countLeadingSilent, hf, this]

/-! ## Claims -/

/-- Claim C1: for every state `s`, mode `m` and reason `r`,
`transition s (Failed r) m = Error` (the failure event short-circuits all
other rules, including from `Idle` and from `Error` itself); and from
`Error` every event other than `ErrorAcknowledged` leaves the state at
`Error`, while `transition Error ErrorAcknowledged m = Idle`. -/
theorem transition_failed_and_error (s : AppState) (e : AppEvent) (m : RecordingMode) (r : String) :
    transition s (.Failed r) m = .Error ∧
    transition .Error e m = (if e = .ErrorAcknowledged then .Idle else .Error) := by
  refine ⟨rfl, ?_⟩
  cases e <;> simp [transition]

/-- Claim C8 counterexample: in push-to-talk mode the mode's stop-record
hotkey event (`HotkeyUp`) does not cancel an in-flight pipeline — from
`Transcribing` it is ignored and the state stays `Transcribing`, not
`Idle` as the claim requires for every mode. -/
theorem transition_hotkeyUp_ptt_ignored :
    transition .Transcribing .HotkeyUp .PushToTalk = .Transcribing ∧
    AppState.Transcribing ≠ AppState.Idle := ⟨rfl, by decide⟩

/-- Claim C8 (amended): in every mode, `Cancel` and the `HotkeyPressed`
event (the toggle stop-record hotkey, which the cancel arm accepts
unconditionally) map `Transcribing`, `Enhancing` and `Pasting` to `Idle`;
`transition Recording Cancel m = Recording` unchanged; and in push-to-talk
mode the stop-record event `HotkeyUp` leaves the processing states
unchanged rather than cancelling. -/
theorem transition_cancel_processing (m : RecordingMode) :
    transition .Transcribing .Cancel m = .Idle ∧
    transition .Enhancing .Cancel m = .Idle ∧
    transition .Pasting .Cancel m = .Idle ∧
    transition .Transcribing .HotkeyPressed m = .Idle ∧
    transition .Enhancing .HotkeyPressed m = .Idle ∧
    transition .Pasting .HotkeyPressed m = .Idle ∧
    transition .Recording .Cancel m = .Recording ∧
    transition .Transcribing .HotkeyUp .PushToTalk = .Transcribing ∧
    transition .Enhancing .HotkeyUp .PushToTalk = .Enhancing ∧
    transition .Pasting .HotkeyUp .PushToTalk = .Pasting := by
  cases m <;> exact ⟨rfl, rfl, rfl, rfl, rfl, rfl, rfl, rfl, rfl, rfl⟩

/-- Claim C10: `to_mono` with `channels = 0` takes the `channels <= 1`
branch and returns the input unchanged — total, no division by zero. -/
theorem to_mono_zero_channels (samples : List ℚ) : to_mono samples 0 = samples := rfl

/-- Claim C5 counterexample: an empty input with a wrong sample rate is
accepted — the empty-input guard precedes the rate check, so
`encode_ogg_opus [] 44100` returns `Ok []`, not an `EncodingFailed` error
as the claim requires of every call with rate ≠ 16000. -/
theorem encode_ogg_opus_empty_wrong_rate :
    encode_ogg_opus [] 44100 = some (.ok []) ∧
    ¬ ∃ msg, encode_ogg_opus [] 44100 = some (.error (.encodingFailed msg)) := by
  refine ⟨rfl, ?_⟩
  rintro ⟨msg, h⟩
  rw [show encode_ogg_opus [] 44100 = some (.ok []) from rfl] at h
  simp at h

/-- Claim C5 (amended): empty sample input encodes to `Ok` with empty
output for every sample rate (including wrong ones — the empty guard comes
first), and every call with a non-empty input whose sample rate differs
from 16000 Hz returns an `EncodingFailed` error. -/
theorem encode_ogg_opus_guards (samples : List ℚ) (sample_rate : Nat) :
    encode_ogg_opus [] sample_rate = some (.ok []) ∧
    (samples ≠ [] → sample_rate ≠ 16000 →
      encode_ogg_opus samples sample_rate =
        some (.error (.encodingFailed
          ((("expected 16000 Hz, got ") ++ toString sample_rate) ++ (" Hz"))))) := by
  constructor
  · rfl
  · intro h1 h2
    simp [encode_ogg_opus, h1, h2]

/-- Claim C5 witness: the amended theorem applied at a concrete non-empty
input with rate 44100. -/
theorem encode_ogg_opus_guards_witness :
    encode_ogg_opus [(1 : ℚ)] 44100 =
      some (.error (.encodingFailed
        ((("expected 16000 Hz, got ") ++ toString (44100 : Nat)) ++ (" Hz")))) :=
  (encode_ogg_opus_guards [(1 : ℚ)] 44100).2 (by simp) (by decide)

/-- Claim C2: at sample rate 100 Hz with a 1-second maximum chunk length
on 571 zero samples, the chunking loop never terminates: the quiet cut
lands at sample 71, the 1.5 s overlap pulls the next offset back to
`71 - 150`, which saturates to 0, and the loop re-emits the same chunk
forever — `chunk_audio` runs out of any finite fuel.  (The repository's
own test comment says `max_chunk_sec` "should be clamped to 1, not cause
infinite loop"; at 16 kHz the same shape appears with 6 s of audio.) -/
theorem chunk_audio_never_returns : ∀ fuel, chunk_audio silence571 100 1 fuel = .outOfFuel := by
  have step : ∀ (f : Nat) (acc : List (Nat × Nat)),
      chunk_loop silence571 100 1 (f + 1) 0 acc = chunk_loop silence571 100 1 f 0 (acc ++ [(0, 71)]) :=
    fun _ _ => by with_unfolding_all rfl
  have key : ∀ (f : Nat) (acc : List (Nat × Nat)),
      chunk_loop silence571 100 1 f 0 acc = .outOfFuel := by
    intro f
    induction f with
    | zero => intro acc; rfl
    | succ n ih =>
      intro acc
      rw [step]
      exact ih _
  intro fuel
  have h0 : chunk_audio silence571 100 1 fuel = chunk_loop silence571 100 1 fuel 0 [] := by
    with_unfolding_all rfl
  rw [h0]
  exact key fuel []

/-- Claim C6: `validate_enhancement raw enhanced` returns `Fallback raw`
exactly when the raw text trims to empty, or the candidate trims to empty,
or the raw text has more than two words and the word-count ratio
enhanced/raw is strictly below 0.3 or strictly above 1.5 (so the exact
boundary ratios 0.3 and 1.5 are accepted, and raw inputs of at most two
words skip the ratio check); otherwise it returns `Ok` with the trimmed
candidate, truncated to the first 5000 characters when longer than that
budget (the code triggers truncation on the UTF-8 byte length, which is
at least the character count, so the observable result is exactly the
character-budget truncation stated here). -/
theorem validate_enhancement_spec (raw enhanced : String) :
    (validate_enhancement raw enhanced = .Fallback raw ↔
      trim raw = ("") ∨ trim enhanced = ("") ∨
        (2 < count_words raw ∧
          ((count_words (trim enhanced) : ℚ) / (count_words raw : ℚ) < 3 / 10 ∨
            3 / 2 < (count_words (trim enhanced) : ℚ) / (count_words raw : ℚ)))) ∧
    (¬ (trim raw = ("") ∨ trim enhanced = ("") ∨
        (2 < count_words raw ∧
          ((count_words (trim enhanced) : ℚ) / (count_words raw : ℚ) < 3 / 10 ∨
            3 / 2 < (count_words (trim enhanced) : ℚ) / (count_words raw : ℚ)))) →
      validate_enhancement raw enhanced =
        .Ok (if 5000 < (trim enhanced).length then String.mk ((trim enhanced).toList.take 5000)
          else trim enhanced)) := by
  have hchars : (trim enhanced).length ≤ (trim enhanced).utf8ByteSize :=
    length_le_utf8ByteSize (trim enhanced)
  constructor
  · rw [validate_enhancement]
    split_ifs with h1 h2 h3 h4 h5
    · exact iff_of_true rfl (Or.inl h1)
    · exact iff_of_true rfl (Or.inr (Or.inl h2))
    · exact iff_of_true rfl (Or.inr (Or.inr ⟨h3.1, Or.inl h3.2⟩))
    · exact iff_of_true rfl (Or.inr (Or.inr ⟨h4.1, Or.inr h4.2⟩))
    · refine iff_of_false (by simp) ?_
      rintro (hc | hc | ⟨hw, hlow | hhigh⟩)
      · exact h1 hc
      · exact h2 hc
      · exact h3 ⟨hw, hlow⟩
      · exact h4 ⟨hw, hhigh⟩
    · refine iff_of_false (by simp) ?_
      rintro (hc | hc | ⟨hw, hlow | hhigh⟩)
      · exact h1 hc
      · exact h2 hc
      · exact h3 ⟨hw, hlow⟩
      · exact h4 ⟨hw, hhigh⟩
  · intro hc
    have h1 : ¬ trim raw = ("") := fun h => hc (Or.inl h)
    have h2 : ¬ trim enhanced = ("") := fun h => hc (Or.inr (Or.inl h))
    have h3 : ¬ (2 < count_words raw ∧
        (count_words (trim enhanced) : ℚ) / (count_words raw : ℚ) < 3 / 10) :=
      fun h => hc (Or.inr (Or.inr ⟨h.1, Or.inl h.2⟩))
    have h4 : ¬ (2 < count_words raw ∧
        3 / 2 < (count_words (trim enhanced) : ℚ) / (count_words raw : ℚ)) :=
      fun h => hc (Or.inr (Or.inr ⟨h.1, Or.inr h.2⟩))
    rw [validate_enhancement, if_neg h1, if_neg h2, if_neg h3, if_neg h4]
    by_cases hchar : 5000 < (trim enhanced).length
    · rw [if_pos (by omega), if_pos hchar]
    · rw [if_neg hchar]
      by_cases hbyte : 5000 < (trim enhanced).utf8ByteSize
      · rw [if_pos hbyte]
        have htake : (trim enhanced).toList.take 5000 = (trim enhanced).toList :=
          List.take_of_length_le (by
            have : (trim enhanced).toList.length = (trim enhanced).length := rfl
            omega)
        rw [htake]
        rfl
      · rw [if_neg hbyte]

/-- Claim C6 witness: the theorem applied at a concrete accepted
enhancement (ratio 4/4, within the bounds). -/
theorem validate_enhancement_spec_witness :
    validate_enhancement ("hello world test check") ("Hello world, test check.") =
      .Ok (if 5000 < (trim ("Hello world, test check.")).length
        then String.mk ((trim ("Hello world, test check.")).toList.take 5000)
        else trim ("Hello world, test check.")) :=
  (validate_enhancement_spec ("hello world test check") ("Hello world, test check.")).2
    (by with_unfolding_all decide)

/-- Claim C4: the Enhancement Client's `do_enhance` never returns an
error — whenever the loop reaches a verdict it is `Ok`, carrying either
the validator's output for some successful response, or the original raw
input text unchanged (the fallback on every terminal failure: non-retryable
errors, exhausted general retry budget, and exhausted rate-limit cap). -/
theorem do_enhance_always_ok (raw : String) (retry_count : Nat)
    (outcomes : List (Except EnhanceError String)) (r : Except EnhanceError String)
    (h : do_enhance raw retry_count outcomes = some r) :
    ∃ t, r = .ok t ∧
      (t = raw ∨ ∃ e, Except.ok e ∈ outcomes ∧ t = validation_text raw e) := by
  rw [do_enhance] at h
  have key : ∀ (outs : List (Except EnhanceError String)) (rl rr : Nat)
      (res : Except EnhanceError String), do_enhance_loop raw outs rl rr = some res →
      ∃ t, res = .ok t ∧ (t = raw ∨ ∃ e, Except.ok e ∈ outs ∧ t = validation_text raw e) := by
    intro outs
    induction outs with
    | nil =>
      intro rl rr res hres
      simp [do_enhance_loop] at hres
    | cons o rest ih =>
      intro rl rr res hres
      have lift : ∀ rl2 rr2, do_enhance_loop raw rest rl2 rr2 = some res →
          ∃ t, res = .ok t ∧
            (t = raw ∨ ∃ e, Except.ok e ∈ o :: rest ∧ t = validation_text raw e) := by
        intro rl2 rr2 hh
        rcases ih rl2 rr2 res hh with ⟨t, ht, hcase⟩
        refine ⟨t, ht, ?_⟩
        rcases hcase with hc | ⟨e, he, hv⟩
        · exact Or.inl hc
        · exact Or.inr ⟨e, List.mem_cons_of_mem _ he, hv⟩
      cases o with
      | ok e =>
        simp only [do_enhance_loop, Option.some_inj] at hres
        exact ⟨validation_text raw e, hres.symm, Or.inr ⟨e, List.mem_cons_self _ _, rfl⟩⟩
      | error err =>
        cases err
        case rateLimited n =>
          simp only [do_enhance_loop] at hres
          split at hres
          · exact ⟨raw, (Option.some_inj.mp hres).symm, Or.inl rfl⟩
          · exact lift _ _ hres
        all_goals (
          simp only [do_enhance_loop] at hres
          split at hres
          · exact ⟨raw, (Option.some_inj.mp hres).symm, Or.inl rfl⟩
          · split at hres
            · exact ⟨raw, (Option.some_inj.mp hres).symm, Or.inl rfl⟩
            · exact lift _ _ hres)
  exact key outcomes retry_count 0 r h

/-- Claim C4 witness: the theorem applied with a single non-retryable
authentication failure — the verdict is `Ok` with the raw text. -/
theorem do_enhance_always_ok_witness :
    ∃ t, (Except.ok ("hi") : Except EnhanceError String) = .ok t ∧
      (t = ("hi") ∨ ∃ e, Except.ok e ∈ ([.error .authFailed] : List (Except EnhanceError String)) ∧
        t = validation_text ("hi") e) :=
  do_enhance_always_ok ("hi") 0 [.error .authFailed] (.ok ("hi")) rfl

/-- Claim C9 counterexample: a one-sample all-zero input (any length below
the 200 ms leading minimum) is returned unchanged by `trim_silence`, not
trimmed to empty as the claim requires of all-silent input of any length. -/
theorem trim_silence_short_silence_kept :
    trim_silence [(0 : ℚ)] 16000 = [(0 : ℚ)] ∧ ([(0 : ℚ)] : List ℚ) ≠ [] :=
  ⟨by with_unfolding_all decide, by simp⟩

/-- Claim C9 (amended): for any sample rate with a nonzero 20 ms frame
size and any input all of whose analysis frames are silent (RMS at most
the 0.01 threshold), `trim_silence` returns the empty sequence as soon as
the input spans at least 10 frames (the 200 ms leading minimum, counting
the partial final frame); shorter all-silent input is returned unchanged. -/
theorem trim_silence_all_silent (samples : List ℚ) (rate : Nat)
    (hf : 0 < rate * 20 / 1000)
    (hs : ∀ f ∈ chunksOf (rate * 20 / 1000) samples, voiced f = false) :
    (10 ≤ (chunksOf (rate * 20 / 1000) samples).length → trim_silence samples rate = []) ∧
    ((chunksOf (rate * 20 / 1000) samples).length < 10 → trim_silence samples rate = samples) := by
  by_cases hsam : samples = []
  · subst hsam
    refine ⟨fun h10 => ?_, fun _ => ?_⟩
    · simp [chunksOf, chunks_fuel] at h10
    · rfl
  · have hk : countLeadingSilent (chunksOf (rate * 20 / 1000) samples) =
        (chunksOf (rate * 20 / 1000) samples).length := countLeadingSilent_all _ hs
    have hcov : samples.length ≤ (chunksOf (rate * 20 / 1000) samples).length * (rate * 20 / 1000) :=
      chunks_fuel_length_le _ hf samples.length samples (Nat.le_refl _)
    constructor
    · intro h10
      have hlead : trim_leading_silence samples rate 200 = [] := by
        rw [trim_leading_silence, if_neg hsam, if_neg (by omega)]
        simp only [hk]
        rw [if_neg (by omega), if_pos hcov]
      rw [trim_silence, hlead]
      rfl
    · intro hlt
      have hlead : trim_leading_silence samples rate 200 = samples := by
        rw [trim_leading_silence, if_neg hsam, if_neg (by omega)]
        simp only [hk]
        rw [if_pos (by omega)]
      rw [trim_silence, hlead, trim_trailing_silence, if_neg hsam, if_neg (by omega)]
      have hj : countLeadingSilent (chunksOf (rate * 20 / 1000) samples).reverse =
          (chunksOf (rate * 20 / 1000) samples).reverse.length := by
        refine countLeadingSilent_all _ ?_
        intro f hfmem
        exact hs f (List.mem_reverse.mp hfmem)
      simp only [hj, List.length_reverse]
      rw [if_pos (by omega)]

/-- Claim C9 witness: ten all-zero samples at 50 Hz (frame size one
sample) span exactly ten silent frames and trim to empty. -/
theorem trim_silence_all_silent_witness :
    trim_silence (List.replicate 10 (0 : ℚ)) 50 = [] :=
  (trim_silence_all_silent (List.replicate 10 (0 : ℚ)) 50 (by decide)
    (by with_unfolding_all decide)).1 (by with_unfolding_all decide)

/-- Congruence for `Nat.findGreatest` under pointwise equivalence below
the bound (position 0 never matters: `findGreatest` returns 0 by default). -/
theorem findGreatest_congr_of_iff (P Q : Nat → Prop) [DecidablePred P] [DecidablePred Q] :
    ∀ k, (∀ n, 0 < n → n ≤ k → (P n ↔ Q n)) → Nat.findGreatest P k = Nat.findGreatest Q k := by
  intro k
  induction k with
  | zero => intro _; rfl
  | succ k ih =>
    intro h
    rw [Nat.findGreatest_succ, Nat.findGreatest_succ]
    by_cases hp : P (k + 1)
    · rw [if_pos hp, if_pos ((h (k + 1) (by omega) (Nat.le_refl _)).mp hp)]
    · rw [if_neg hp, if_neg (fun hq => hp ((h (k + 1) (by omega) (Nat.le_refl _)).mpr hq))]
      exact ih (fun n hn hnk => h n hn (by omega))

/-- Searching up to `k` for a property cut off at `m ≤ k` is the same as
searching up to `m`. -/
theorem findGreatest_restrict (P : Nat → Prop) [DecidablePred P] :
    ∀ (k m : Nat), m ≤ k →
      Nat.findGreatest (fun n => P n ∧ n ≤ m) k = Nat.findGreatest P m := by
  intro k
  induction k with
  | zero =>
    intro m hm
    have : m = 0 := Nat.le_zero.mp hm
    subst this
    rfl
  | succ k ih =>
    intro m hm
    rcases Nat.lt_or_ge m (k + 1) with hlt | hge
    · rw [Nat.findGreatest_succ, if_neg (fun hc => absurd hc.2 (by omega))]
      exact ih m (by omega)
    · have hmeq : m = k + 1 := by omega
      subst hmeq
      rw [Nat.findGreatest_succ, Nat.findGreatest_succ (P := P)]
      by_cases hp : P (k + 1)
      · rw [if_pos ⟨hp, Nat.le_refl _⟩, if_pos hp]
      · rw [if_neg (fun hc => hp hc.1), if_neg hp]
        have hcongr : Nat.findGreatest (fun n => P n ∧ n ≤ k + 1) k =
            Nat.findGreatest (fun n => P n ∧ n ≤ k) k :=
          findGreatest_congr_of_iff _ _ k
            (fun n _ hnk => ⟨fun hc => ⟨hc.1, hnk⟩, fun hc => ⟨hc.1, by omega⟩⟩)
        rw [hcongr]
        exact ih k (Nat.le_refl _)

/-- The source's downward scan from `m` computes the greatest shared run
of length at least 2 and at most `m` (or 0 when none exists). -/
theorem find_text_overlap_from_eq (pw nw : List String) :
    ∀ m, find_text_overlap_from pw nw m =
      Nat.findGreatest (fun n => 2 ≤ n ∧ overlap_match pw nw n = true) m := by
  intro m
  induction m with
  | zero => rfl
  | succ k ih =>
    cases k with
    | zero =>
      rw [Nat.findGreatest_succ, if_neg (fun hc => absurd hc.1 (by omega))]
      rfl
    | succ j =>
      rw [show find_text_overlap_from pw nw (j + 1 + 1) =
          (if overlap_match pw nw (j + 2) = true then j + 2
            else find_text_overlap_from pw nw (j + 1)) from rfl]
      rw [Nat.findGreatest_succ]
      by_cases hm : overlap_match pw nw (j + 2) = true
      · rw [if_pos hm, if_pos ⟨by omega, hm⟩]
      · rw [if_neg hm, if_neg (fun hc => hm hc.2)]
        exact ih

/-- The source's `find_text_overlap` equals the spec-side longest shared
run of length 2–5. -/
theorem find_text_overlap_eq_spec (prev next : String) :
    find_text_overlap prev next = spec_longest_overlap (words prev) (words next) := by
  rw [find_text_overlap, spec_longest_overlap, find_text_overlap_from_eq]
  rw [← findGreatest_restrict
    (fun n => 2 ≤ n ∧ overlap_match (words prev) (words next) n = true) 5
    (min (min (words prev).length (words next).length) 5) (Nat.min_le_right _ _)]
  apply findGreatest_congr_of_iff
  intro n _ hk
  constructor
  · rintro ⟨⟨h2, hM⟩, hle⟩
    refine ⟨h2, by omega, by omega, hM⟩
  · rintro ⟨h2, hpl, hnl, hM⟩
    exact ⟨⟨h2, hM⟩, by omega⟩

/-- The assembling steps agree pointwise. -/
theorem dedup_step_eq_assemble_step : dedup_step = assemble_step := by
  funext r n
  simp only [dedup_step, assemble_step, find_text_overlap_eq_spec]

/-- Claim C7: the transcript assembler returns the empty string for the
empty list, and otherwise appends each subsequent transcript after
dropping `n` leading words, where `n` is the longest run (2 ≤ n ≤ 5) such
that the last `n` words of the accumulated result equal the first `n`
words of the next transcript case-insensitively (no such run: plain
concatenation with a single separating space) — stated as a refinement of
the spec-side assembler, plus the spec's worked example. -/
theorem deduplicate_overlap_matches_spec :
    (∀ texts, deduplicate_overlap_texts texts = assemble_spec texts) ∧
    deduplicate_overlap_texts [] = ("") ∧
    deduplicate_overlap_texts [("a b c d"), ("c d e f")] = ("a b c d e f") := by
  refine ⟨?_, rfl, by decide⟩
  intro texts
  cases texts with
  | nil => rfl
  | cons t rest => simp only [deduplicate_overlap_texts, assemble_spec, dedup_step_eq_assemble_step]

/-- Appending one range to the accumulator takes the maximum end. -/
theorem maxEnd_append (l : List (Nat × Nat)) (x : Nat × Nat) :
    maxEnd (l ++ [x]) = max (maxEnd l) x.2 := by
  induction l with
  | nil => simp [maxEnd, Nat.max_comm]
  | cons y l ih =>
    simp only [maxEnd, List.map_cons, List.foldr_cons, List.cons_append] at ih ⊢
    omega

/-- The minimum scan only ever reports positions of the form
`start + window/2` (or the initial 0), all below the given bound. -/
theorem scan_min_lt (segment : List ℚ) (window L : Nat) (hL : 0 < L) :
    ∀ (starts : List Nat) (st : Option (ℚ × Nat)),
      (∀ s ∈ starts, s + window / 2 < L) →
      (∀ q, st = some q → q.2 < L) →
      scan_min segment window starts st < L := by
  intro starts
  induction starts with
  | nil =>
    intro st hs hst
    cases st with
    | none => exact hL
    | some q => exact hst q rfl
  | cons s rest ih =>
    intro st hs hst
    have hhead : s + window / 2 < L := hs s (List.mem_cons_self s rest)
    have htail : ∀ x ∈ rest, x + window / 2 < L :=
      fun x hx => hs x (List.mem_cons_of_mem s hx)
    cases st with
    | none =>
      simp only [scan_min]
      exact ih _ htail (fun q hq => by cases hq; exact hhead)
    | some st0 =>
      simp only [scan_min]
      split
      · exact ih _ htail (fun q hq => by cases hq; exact hhead)
      · exact ih _ htail (fun q hq => by cases hq; exact hst st0 rfl)

/-- A quiet split point returned by `find_quiet_split_point` lies strictly
inside the analysed segment. -/
theorem find_quiet_split_point_lt (segment : List ℚ) (rate p : Nat)
    (h : find_quiet_split_point segment rate = some (some p)) : p < segment.length := by
  simp only [find_quiet_split_point] at h
  by_cases h1 : segment.length < rate * 20 / 1000 * 2
  · rw [if_pos h1] at h
    simp at h
  · rw [if_neg h1] at h
    by_cases h2 : rate * 20 / 1000 / 2 = 0
    · rw [if_pos h2] at h
      simp at h
    · rw [if_neg h2] at h
      have hp : scan_min segment (rate * 20 / 1000)
          ((List.range (segment.length - rate * 20 / 1000)).filter
            (fun s => s % (rate * 20 / 1000 / 2) = 0)) none = p := by
        simpa using h
      rw [← hp]
      apply scan_min_lt segment (rate * 20 / 1000) segment.length (by omega)
      · intro s hs
        have hs2 := List.mem_range.mp (List.mem_of_mem_filter hs)
        omega
      · intro q hq
        cases hq

/-- When the remaining audio exceeds the window, the split point lies
strictly before the end of the input. -/
theorem split_point_lt_len (samples : List ℚ) (rate offset mcs : Nat) (q : Option Nat)
    (hq : find_quiet_split_point (slice samples (search_start offset mcs) (offset + mcs)) rate =
      some q)
    (hlen : offset + mcs < samples.length) :
    split_point offset mcs q < samples.length := by
  cases q with
  | none =>
    simp only [split_point]
    omega
  | some p =>
    have hp := find_quiet_split_point_lt _ _ _ hq
    have hslen : (slice samples (search_start offset mcs) (offset + mcs)).length =
        min (offset + mcs - search_start offset mcs)
          (samples.length - search_start offset mcs) := by
      simp [slice, List.length_take, List.length_drop]
    rw [hslen] at hp
    simp only [split_point, search_start] at hp ⊢
    omega

/-- The chunk end never passes the end of the input. -/
theorem actual_end_le_len (samples : List ℚ) (rate offset mcs : Nat) (q : Option Nat)
    (hq : find_quiet_split_point (slice samples (search_start offset mcs) (offset + mcs)) rate =
      some q)
    (hlen : offset + mcs < samples.length) :
    actual_end samples rate offset mcs q ≤ samples.length := by
  rw [actual_end]
  split
  · exact Nat.le_refl _
  · exact Nat.le_of_lt (split_point_lt_len samples rate offset mcs q hq hlen)

/-- A chunk end that is not final (strictly before the input end) leaves
at least the minimum chunk length of audio after itself — that is exactly
the trailing-merge guard. -/
theorem actual_end_min_gap (samples : List ℚ) (rate offset mcs : Nat) (q : Option Nat)
    (hlt : actual_end samples rate offset mcs q < samples.length) :
    actual_end samples rate offset mcs q + min_chunk_samples rate ≤ samples.length := by
  rw [actual_end] at hlt ⊢
  by_cases hmin : samples.length - split_point offset mcs q < min_chunk_samples rate
  · rw [if_pos hmin] at hlt
    omega
  · rw [if_neg hmin] at hlt ⊢
    omega

/-- Pushing the final chunk `(offset, samples.length)` onto a well-formed
accumulator yields ranges that cover the whole input, chain correctly and
keep every non-final end at least the minimum chunk length before the
input end. -/
theorem push_final_props (samples : List ℚ) (rate : Nat) (acc : List (Nat × Nat)) (offset : Nat)
    (hcov : ∀ i, i < maxEnd acc → covers acc i)
    (hoff : offset ≤ maxEnd acc)
    (hlast : ∀ x, acc.getLast? = some x → offset ≤ x.2)
    (hchain : List.Chain' (fun a b => b.1 ≤ a.2) acc)
    (hbounds : ∀ p ∈ acc, p.2 ≤ samples.length ∧ p.2 + min_chunk_samples rate ≤ samples.length) :
    (∀ i, i < samples.length → covers (acc ++ [(offset, samples.length)]) i) ∧
    List.Chain' (fun a b => b.1 ≤ a.2) (acc ++ [(offset, samples.length)]) ∧
    (∀ p ∈ acc ++ [(offset, samples.length)], p.2 ≤ samples.length) ∧
    (∀ p ∈ (acc ++ [(offset, samples.length)]).dropLast,
      p.2 + min_chunk_samples rate ≤ samples.length) := by
  refine ⟨?_, ?_, ?_, ?_⟩
  · intro i hi
    by_cases him : i < maxEnd acc
    · rcases hcov i him with ⟨p, hp, hp1, hp2⟩
      exact ⟨p, List.mem_append_left _ hp, hp1, hp2⟩
    · refine ⟨(offset, samples.length),
        List.mem_append_right _ (List.mem_singleton_self _), ?_, ?_⟩
      · show offset ≤ i
        omega
      · exact hi
  · rw [List.chain'_append]
    refine ⟨hchain, List.chain'_singleton _, ?_⟩
    intro x hx y hy
    have hy2 : (offset, samples.length) = y := Option.some_inj.mp hy
    have hox : offset ≤ x.2 := hlast x hx
    rw [← hy2]
    exact hox
  · intro p hp
    rcases List.mem_append.mp hp with hpa | hps
    · exact (hbounds p hpa).1
    · have := List.mem_singleton.mp hps
      subst this
      exact Nat.le_refl _
  · rw [List.dropLast_concat]
    exact fun p hp => (hbounds p hp).2

/-- Invariant-passing induction over the chunking loop: whenever the loop
returns `ok ranges` from a well-formed accumulator, the final ranges cover
the whole input, consecutive ranges overlap or abut, every range ends
within the input, and every non-final range ends at least the minimum
chunk length before the input end. -/
theorem chunk_loop_props (samples : List ℚ) (rate maxSec : Nat) :
    ∀ (fuel offset : Nat) (acc ranges : List (Nat × Nat)),
      chunk_loop samples rate maxSec fuel offset acc = .ok ranges →
      (∀ i, i < maxEnd acc → covers acc i) →
      offset ≤ maxEnd acc →
      (∀ x, acc.getLast? = some x → offset ≤ x.2) →
      List.Chain' (fun a b => b.1 ≤ a.2) acc →
      (∀ p ∈ acc, p.2 ≤ samples.length ∧ p.2 + min_chunk_samples rate ≤ samples.length) →
      ((∀ i, i < samples.length → covers ranges i) ∧
        List.Chain' (fun a b => b.1 ≤ a.2) ranges ∧
        (∀ p ∈ ranges, p.2 ≤ samples.length) ∧
        (∀ p ∈ ranges.dropLast, p.2 + min_chunk_samples rate ≤ samples.length)) := by
  intro fuel
  induction fuel with
  | zero =>
    intro offset acc ranges h
    exact absurd h (by simp [chunk_loop])
  | succ n ih =>
    intro offset acc ranges h hcov hoff hlast hchain hbounds
    rw [chunk_loop] at h
    by_cases hin : offset < samples.length
    · rw [if_pos hin] at h
      by_cases hrem : samples.length - offset ≤ maxSec * rate
      · rw [if_pos hrem] at h
        injection h with h2
        subst h2
        exact push_final_props samples rate acc offset hcov hoff hlast hchain hbounds
      · rw [if_neg hrem] at h
        have hlen : offset + maxSec * rate < samples.length := by omega
        split at h
        · exact absurd h (by simp)
        · rename_i q hq
          have hEle : actual_end samples rate offset (maxSec * rate) q ≤ samples.length :=
            actual_end_le_len samples rate offset (maxSec * rate) q hq hlen
          by_cases hdone : samples.length ≤ actual_end samples rate offset (maxSec * rate) q
          · rw [if_pos hdone] at h
            injection h with h2
            subst h2
            have hE : actual_end samples rate offset (maxSec * rate) q = samples.length :=
              Nat.le_antisymm hEle hdone
            rw [hE]
            exact push_final_props samples rate acc offset hcov hoff hlast hchain hbounds
          · rw [if_neg hdone] at h
            have hElt : actual_end samples rate offset (maxSec * rate) q < samples.length := by
              omega
            have hEmin : actual_end samples rate offset (maxSec * rate) q +
                min_chunk_samples rate ≤ samples.length :=
              actual_end_min_gap samples rate offset (maxSec * rate) q hElt
            have hmax : maxEnd (acc ++ [(offset, actual_end samples rate offset (maxSec * rate) q)]) =
                max (maxEnd acc) (actual_end samples rate offset (maxSec * rate) q) :=
              maxEnd_append acc _
            refine ih (actual_end samples rate offset (maxSec * rate) q - overlap_samples rate)
              (acc ++ [(offset, actual_end samples rate offset (maxSec * rate) q)]) ranges h
              ?_ ?_ ?_ ?_ ?_
            · intro i hi
              rw [hmax] at hi
              by_cases him : i < maxEnd acc
              · rcases hcov i him with ⟨p, hp, hp1, hp2⟩
                exact ⟨p, List.mem_append_left _ hp, hp1, hp2⟩
              · refine ⟨(offset, actual_end samples rate offset (maxSec * rate) q),
                  List.mem_append_right _ (List.mem_singleton_self _), ?_, ?_⟩
                · show offset ≤ i
                  omega
                · show i < actual_end samples rate offset (maxSec * rate) q
                  omega
            · rw [hmax]
              have : actual_end samples rate offset (maxSec * rate) q - overlap_samples rate ≤
                  actual_end samples rate offset (maxSec * rate) q := Nat.sub_le _ _
              omega
            · intro x hx
              rw [List.getLast?_concat] at hx
              have hx2 : (offset, actual_end samples rate offset (maxSec * rate) q) = x :=
                Option.some_inj.mp hx
              rw [← hx2]
              exact Nat.sub_le _ _
            · rw [List.chain'_append]
              refine ⟨hchain, List.chain'_singleton _, ?_⟩
              intro x hx y hy
              have hy2 : (offset, actual_end samples rate offset (maxSec * rate) q) = y :=
                Option.some_inj.mp hy
              have hox : offset ≤ x.2 := hlast x hx
              rw [← hy2]
              exact hox
            · intro p hp
              rcases List.mem_append.mp hp with hpa | hps
              · exact hbounds p hpa
              · have := List.mem_singleton.mp hps
                subst this
                exact ⟨hEle, hEmin⟩
    · rw [if_neg hin] at h
      injection h with h2
      subst h2
      refine ⟨?_, hchain, fun p hp => (hbounds p hp).1, ?_⟩
      · intro i hi
        exact hcov i (by omega)
      · exact fun p hp => (hbounds p (List.dropLast_subset _ hp)).2

/-- Claim C3 counterexample: at 100 Hz with a 6 s maximum chunk length on
921 zero samples, `chunk_audio` terminates with two chunks whose first —
a non-final chunk — spans samples 0..421, i.e. 4.21 s, strictly shorter
than the 5-second minimum chunk duration that the claim asserts for every
non-final chunk (the quiet cut lands at 70% of the window plus half an
analysis window, and the trailing remainder of exactly 5 s is long enough
not to be merged). -/
theorem chunk_audio_short_nonfinal_chunk :
    chunk_audio silence921 100 6 2 = .ok [(0, 421), (271, 921)] ∧
    (0, 421) ∈ ([(0, 421), (271, 921)] : List (Nat × Nat)).dropLast ∧
    421 < min_chunk_samples 100 :=
  ⟨by with_unfolding_all decide, by decide, by decide⟩

/-- Claim C3 (amended): whenever the chunking loop terminates with a
result (`ok ranges` under some fuel — it does not for every input, see the
divergence in the C2 analysis), the produced source ranges cover every
input sample with no gaps, consecutive ranges overlap or abut
(`next.start ≤ prev.end`, the 1.5 s overlap saturating at zero), every
range ends within the input, every non-final range ends at least the
5-second minimum chunk length before the input end (the code guarantees
this gap rather than a minimum length of the non-final chunk itself), and
an input of at most `max_chunk_sec` seconds yields exactly one chunk equal
to the whole input. -/
theorem chunk_audio_chunks_properties (samples : List ℚ) (rate maxSec fuel : Nat)
    (ranges : List (Nat × Nat))
    (h : chunk_audio samples rate maxSec fuel = .ok ranges) :
    (∀ i, i < samples.length → covers ranges i) ∧
    List.Chain' (fun a b => b.1 ≤ a.2) ranges ∧
    (∀ p ∈ ranges, p.2 ≤ samples.length) ∧
    (∀ p ∈ ranges.dropLast, p.2 + min_chunk_samples rate ≤ samples.length) ∧
    (samples.length ≤ maxSec * rate → ranges = [(0, samples.length)]) := by
  rw [chunk_audio] at h
  by_cases hdeg : rate = 0 ∨ maxSec = 0
  · rw [if_pos hdeg] at h
    injection h with h2
    subst h2
    refine ⟨?_, List.chain'_singleton _, ?_, ?_, fun _ => rfl⟩
    · intro i hi
      exact ⟨(0, samples.length), List.mem_singleton_self _, Nat.zero_le _, hi⟩
    · intro p hp
      have := List.mem_singleton.mp hp
      subst this
      exact Nat.le_refl _
    · intro p hp
      simp at hp
  · rw [if_neg hdeg] at h
    by_cases hshort : samples.length ≤ maxSec * rate
    · rw [if_pos hshort] at h
      injection h with h2
      subst h2
      refine ⟨?_, List.chain'_singleton _, ?_, ?_, fun _ => rfl⟩
      · intro i hi
        exact ⟨(0, samples.length), List.mem_singleton_self _, Nat.zero_le _, hi⟩
      · intro p hp
        have := List.mem_singleton.mp hp
        subst this
        exact Nat.le_refl _
      · intro p hp
        simp at hp
    · rw [if_neg hshort] at h
      have main := chunk_loop_props samples rate maxSec fuel 0 [] ranges h
        (fun i hi => absurd hi (by simp [maxEnd]))
        (Nat.zero_le _)
        (fun x hx => by cases hx)
        List.chain'_nil
        (fun p hp => absurd hp (List.not_mem_nil p))
      exact ⟨main.1, main.2.1, main.2.2.1, main.2.2.2, fun hc => absurd hc hshort⟩

/-- Claim C3 witness: a three-sample input with a five-second maximum at
1 Hz fits in one chunk; the amended theorem applied there. -/
theorem chunk_audio_chunks_properties_witness :
    (∀ i, i < ([0, 0, 0] : List ℚ).length → covers [(0, 3)] i) ∧
    List.Chain' (fun a b => b.1 ≤ a.2) [(0, 3)] ∧
    (∀ p ∈ ([(0, 3)] : List (Nat × Nat)), p.2 ≤ ([0, 0, 0] : List ℚ).length) ∧
    (∀ p ∈ ([(0, 3)] : List (Nat × Nat)).dropLast,
      p.2 + min_chunk_samples 1 ≤ ([0, 0, 0] : List ℚ).length) ∧
    (([0, 0, 0] : List ℚ).length ≤ 5 * 1 → [(0, 3)] = [(0, ([0, 0, 0] : List ℚ).length)]) :=
  chunk_audio_chunks_properties [0, 0, 0] 1 5 0 [(0, 3)] rfl

end VoiceDictator
